import Mathlib

/-!
Verification of the lazy_crc checksum/manifest subsystem (src/lazy_crc/main.cpp)
against its natural-language specification.

The C++ source is shallowly embedded: byte contents are `List Nat` (each byte
`< 256` where it matters), machine integers are `Nat` (CRC values stay below
`2^32` because every operation is an xor of values below `2^32`), the
`std::map<fs::path, std::wstring>` store is a key-sorted association list, and
`std::filesystem::path` is modelled either as a `String` (a store key) or as
its list of components (for the output-path computation). Recursive loops are
written with an explicit fuel argument that provably suffices, so that every
definition evaluates by kernel reduction on concrete inputs.

The verify (`--check`) half of the program is absent from the sources at hand;
the definitions for it are modelled from the spec and say so in their doc
comments.
-/

namespace LazyCrc

/-- The constant `CHUNK_SIZE { 4 * 1024 }` from the source. -/
def CHUNK_SIZE : Nat := 4 * 1024

/-- One shift round of the reflected CRC32 with polynomial `0xEDB88320`. -/
def crcRound (c : Nat) : Nat :=
  if c % 2 = 1 then (c / 2) ^^^ 0xEDB88320 else c / 2

/-- Fold one byte into the raw CRC32 register (eight polynomial rounds). -/
def crcByte (c b : Nat) : Nat :=
  crcRound^[8] (c ^^^ (b % 256))

/-- Semantics of the library call `crc32_16bytes_prefetch(data, length, previousCrc32)`
(stbrumme/crc32): the standard reflected CRC32 update — complement the running
value, fold each byte through the polynomial, complement again. -/
def crc32_update (data : List Nat) (previousCrc32 : Nat) : Nat :=
  (data.foldl crcByte (previousCrc32 ^^^ 0xFFFFFFFF)) ^^^ 0xFFFFFFFF

/-- The read-and-fold loop of `process_file`, abstracted over the chunk size.
`fuel` bounds the number of iterations; `content.length` iterations always
suffice when the chunk size is positive (as in the source, where it is 4096).
Each pass takes `min(chunk_size, bytes_left)` bytes and folds them into the
accumulator. -/
def crcLoopGo (chunk : Nat) : Nat → List Nat → Nat → Nat
  | 0, _, crc => crc
  | _, [], crc => crc
  | fuel + 1, content, crc =>
      let c := min chunk content.length
      crcLoopGo chunk fuel (content.drop c) (crc32_update (content.take c) crc)

/-- CRC of a whole content as `process_file` computes it: seed `0`, fold
chunk by chunk until all bytes are consumed. -/
def crcLoop (chunk : Nat) (content : List Nat) (crc : Nat) : Nat :=
  crcLoopGo chunk content.length content crc

/-- One uppercase hexadecimal digit, as `std::hex << std::uppercase` renders it. -/
def hexDigit : Nat → Char
  | 0 => '0' | 1 => '1' | 2 => '2' | 3 => '3' | 4 => '4'
  | 5 => '5' | 6 => '6' | 7 => '7' | 8 => '8' | 9 => '9'
  | 10 => 'A' | 11 => 'B' | 12 => 'C' | 13 => 'D' | 14 => 'E'
  | _ => 'F'

/-- The source's `to_hex` applied to a `uint32_t`: eight uppercase hex
digits, zero-padded (`setfill('0') << setw(8) << hex << uppercase`). -/
def to_hex (val : Nat) : String :=
  String.mk ((List.range 8).map (fun i => hexDigit (val / 16 ^ (7 - i) % 16)))

/-- The checksum string `process_file` stores for a file content:
`to_hex` of the chunked CRC32. -/
def fileCrcHex (content : List Nat) : String :=
  to_hex (crcLoop CHUNK_SIZE content 0)

/-- Uppercase hexadecimal character test (digits and `A`–`F`). -/
def isHexUpperChar (c : Char) : Bool :=
  (decide (48 ≤ c.toNat) && decide (c.toNat ≤ 57)) ||
    (decide (65 ≤ c.toNat) && decide (c.toNat ≤ 70))

/-- The store `std::map<fs::path, std::wstring> m_files`: an association list
kept sorted strictly by key. -/
abbrev Store := List (String × String)

/-- The map ordering invariant: keys strictly increasing. -/
def StoreSorted (s : Store) : Prop :=
  s.Pairwise (fun a b => a.1 < b.1)

/-- Insertion `m_files.try_emplace(key, value)`: insert at the ordered position; no-op
when the key is already present. -/
def tryEmplace (k v : String) : Store → Store
  | [] => [(k, v)]
  | (k2, v2) :: rest =>
      if k < k2 then (k, v) :: (k2, v2) :: rest
      else if k = k2 then (k2, v2) :: rest
      else (k2, v2) :: tryEmplace k v rest

/-- Erasure `m_files.find` followed by `m_files.erase`: remove the (unique, in a map)
entry with the given key; no-op when the key is absent. -/
def eraseKey (k : String) : Store → Store
  | [] => []
  | (k2, v2) :: rest => if k2 = k then rest else (k2, v2) :: eraseKey k rest

/-- One serialized manifest line: `data << path << ' ' << hash << endl`. -/
def sfvLine (e : String × String) : String :=
  e.1 ++ " " ++ e.2

/-- The serialization loop of `write_sfv`: the store in iteration (= key)
order, one line per entry. -/
def serialize (s : Store) : List String :=
  s.map sfvLine

/-- Result of `write_sfv`: the store afterwards, the manifest lines written
(`none` when no file is created), and whether the creation message was shown. -/
structure SfvResult where
  store : Store
  written : Option (List String)
  messageShown : Bool
deriving DecidableEq

/-- Behaviour of `write_sfv(path_sfv)` on a store: an empty store writes nothing; otherwise
the entry matching the manifest's own filename is erased and the remaining
store is serialized, then the creation message is printed. -/
def write_sfv (sfvName : String) (store : Store) : SfvResult :=
  if store.isEmpty then ⟨store, none, false⟩
  else
    let store2 := eraseKey sfvName store
    ⟨store2, some (serialize store2), true⟩

/-- Build-mode store construction for a list of (relative path, content)
files: per file, the chunked CRC is computed and `try_emplace`d. -/
def buildStore (files : List (String × List Nat)) : Store :=
  files.foldl (fun st f => tryEmplace f.1 (fileCrcHex f.2) st) []

/-- One file as `process_file` sees it: its store key (relative path in
directory mode, filename otherwise), its byte content, and the outcome of the
three fallible collaborator calls — stream open, `fs::file_size`, and
`fs::relative`. -/
structure FileJob where
  relPath : String
  content : List Nat
  openOk : Bool
  sizeOk : Bool
  relOk : Bool
deriving DecidableEq

/-- Control flow of `process_file` on one file: an open failure returns with
no store access; a `file_size` error returns before the loop; in directory
mode a `fs::relative` error returns before the insert; otherwise the record is
`try_emplace`d. -/
def processFile (dirMode : Bool) (job : FileJob) (store : Store) : Store :=
  if !job.openOk then store
  else if !job.sizeOk then store
  else if dirMode && !job.relOk then store
  else tryEmplace job.relPath (fileCrcHex job.content) store

/-- The enumeration loop of `wmain`: every regular file is handed to
`process_file` in turn, unconditionally of earlier per-file outcomes. -/
def runBuild (dirMode : Bool) (jobs : List FileJob) (store : Store) : Store :=
  jobs.foldl (fun st j => processFile dirMode j st) store

/-- A `std::filesystem::path`, modelled as its list of components. -/
abbrev FsPath := List String

/-- The method `path.parent_path()`: all components but the last. -/
def parent_path (p : FsPath) : FsPath :=
  p.dropLast

/-- The method `path.filename()`: the last component (empty for the empty path). -/
def filename (p : FsPath) : String :=
  (p.getLast?).getD ""

/-- The output path computed by `wmain`:
`path_file.parent_path() / path_file.filename() += ".sfv"`. -/
def path_sfv (p : FsPath) : FsPath :=
  parent_path p ++ [filename p ++ ".sfv"]

/-- Size of the heap buffer `process_file` allocates for a file of the given
size: `new char[file_size]`. -/
def bufferAlloc (file_size : Nat) : Nat :=
  file_size

/-- The sizes requested by the successive `file.read` calls of the loop, with
fuel; each is `min(chunk_size, bytes_left)`. -/
def chunkSizesGo (chunk : Nat) : Nat → Nat → List Nat
  | 0, _ => []
  | fuel + 1, remaining =>
      if remaining = 0 then []
      else min chunk remaining :: chunkSizesGo chunk fuel (remaining - min chunk remaining)

/-- The read sizes of `process_file`'s loop over a file of the given size. -/
def chunkSizes (chunk file_size : Nat) : List Nat :=
  chunkSizesGo chunk file_size file_size

/-- Overwrite `buf` at `off` with `bytes` (the effect of `file.read` landing
`bytes` into the allocated buffer at the current cursor). -/
def writeAt (buf : List Nat) (off : Nat) (bytes : List Nat) : List Nat :=
  buf.take off ++ bytes ++ buf.drop (off + bytes.length)

/-- The read-and-fold loop in the presence of a stream that delivers the byte
list `avail` (possibly shorter than the probed `file_size`). Each pass asks
for `min(chunk, file_size - off)` bytes, the stream lands whatever it still
has for that range, and — exactly as in the source, which never inspects the
read result — the CRC is folded over the buffer slice of the full requested
length, stale bytes included. -/
def readLoopGo (chunk file_size : Nat) (avail : List Nat) :
    Nat → Nat → List Nat → Nat → Nat
  | 0, _, _, crc => crc
  | fuel + 1, off, buf, crc =>
      if file_size ≤ off then crc
      else
        let c := min chunk (file_size - off)
        let got := (avail.drop off).take c
        let buf2 := writeAt buf off got
        let crc2 := crc32_update ((buf2.drop off).take c) crc
        readLoopGo chunk file_size avail fuel (off + c) buf2 crc2

/-- Behaviour of `process_file` against a possibly-short stream: the loop runs to
completion (never signalling an I/O error) and the record is inserted
unconditionally. `init` is the freshly allocated buffer's arbitrary initial
content. -/
def process_file_stream (file_size : Nat) (avail init : List Nat)
    (key : String) (store : Store) : Store :=
  tryEmplace key (to_hex (readLoopGo CHUNK_SIZE file_size avail file_size 0 init 0)) store

instance storeKeyLtDec : DecidableRel (fun (a b : String × String) => a.1 < b.1) :=
  fun a b => inferInstanceAs (Decidable (a.1 < b.1))

instance storeSortedDec (s : Store) : Decidable (StoreSorted s) :=
  inferInstanceAs (Decidable (s.Pairwise (fun (a b : String × String) => a.1 < b.1)))

/-! ## Theorems -/

/-- Chained updates over a concatenation agree with one update over the whole. -/
theorem crc32_update_append (a b : List Nat) (prev : Nat) :
    crc32_update (a ++ b) prev = crc32_update b (crc32_update a prev) := by
  unfold crc32_update
  rw [List.foldl_append, Nat.xor_assoc, Nat.xor_self, Nat.xor_zero]

/-- With positive chunk size and enough fuel, the chunked loop computes the
one-pass CRC32 update of the whole content. -/
theorem crcLoopGo_eq_update (chunk : Nat) (hc : 0 < chunk) :
    ∀ fuel content prev, content.length ≤ fuel →
      crcLoopGo chunk fuel content prev = crc32_update content prev := by
  intro fuel
  induction fuel with
  | zero =>
      intro content prev hlen
      have hnil : content = [] := List.eq_nil_of_length_eq_zero (Nat.le_zero.mp hlen)
      subst hnil
      simp [crcLoopGo, crc32_update, Nat.xor_assoc, Nat.xor_self, Nat.xor_zero]
  | succ n ih =>
      intro content prev hlen
      match content with
      | [] =>
          simp [crcLoopGo, crc32_update, Nat.xor_assoc, Nat.xor_self, Nat.xor_zero]
      | x :: xs =>
          have hpos : 0 < (x :: xs).length := by simp
          have hcpos : 0 < min chunk (x :: xs).length := lt_min hc hpos
          have hdrop : ((x :: xs).drop (min chunk (x :: xs).length)).length ≤ n := by
            rw [List.length_drop]
            omega
          calc crcLoopGo chunk (n + 1) (x :: xs) prev
              = crcLoopGo chunk n ((x :: xs).drop (min chunk (x :: xs).length))
                  (crc32_update ((x :: xs).take (min chunk (x :: xs).length)) prev) := rfl
            _ = crc32_update ((x :: xs).drop (min chunk (x :: xs).length))
                  (crc32_update ((x :: xs).take (min chunk (x :: xs).length)) prev) :=
                ih _ _ hdrop
            _ = crc32_update ((x :: xs).take (min chunk (x :: xs).length) ++
                  (x :: xs).drop (min chunk (x :: xs).length)) prev :=
                (crc32_update_append _ _ _).symm
            _ = crc32_update (x :: xs) prev := by rw [List.take_append_drop]

/-- The chunked fold with any positive chunk size equals the one-pass update. -/
theorem crcLoop_eq_update (chunk : Nat) (hc : 0 < chunk) (content : List Nat) (prev : Nat) :
    crcLoop chunk content prev = crc32_update content prev :=
  crcLoopGo_eq_update chunk hc content.length content prev (Nat.le_refl _)

/-- C1: for every byte content and all positive chunk sizes, the checksum of
`process_file`'s read-and-fold loop equals the CRC32 of the entire content
computed in one pass, and is therefore identical for any two chunk sizes. -/
theorem chunked_crc_eq_one_pass (content : List Nat) (c1 c2 : Nat)
    (h1 : 0 < c1) (h2 : 0 < c2) :
    crcLoop c1 content 0 = crc32_update content 0 ∧
    crcLoop c1 content 0 = crcLoop c2 content 0 := by
  refine ⟨crcLoop_eq_update c1 h1 content 0, ?_⟩
  rw [crcLoop_eq_update c1 h1 content 0, crcLoop_eq_update c2 h2 content 0]

/-- Witness for C1 at the two-byte content "AB" with chunk sizes 1 and 3. -/
theorem chunked_crc_eq_one_pass_witness :
    0 < 1 ∧ 0 < 3 ∧
      (crcLoop 1 [65, 66] 0 = crc32_update [65, 66] 0 ∧
       crcLoop 1 [65, 66] 0 = crcLoop 3 [65, 66] 0) :=
  ⟨Nat.one_pos, by decide, chunked_crc_eq_one_pass [65, 66] 1 3 Nat.one_pos (by decide)⟩

theorem isHexUpperChar_hexDigit (n : Nat) : isHexUpperChar (hexDigit n) = true := by
  rcases n with _|_|_|_|_|_|_|_|_|_|_|_|_|_|_|n <;> rfl

theorem to_hex_length (val : Nat) : (to_hex val).length = 8 := by
  simp [to_hex, String.length]

theorem to_hex_all_hex (val : Nat) : (to_hex val).data.all isHexUpperChar = true := by
  rw [List.all_eq_true]
  intro c hc
  simp only [to_hex] at hc
  obtain ⟨i, _, rfl⟩ := List.mem_map.mp hc
  exact isHexUpperChar_hexDigit _

/-- Every entry of `tryEmplace k v s` is the new pair or an entry of `s`. -/
theorem mem_tryEmplace (k v : String) (s : Store) :
    ∀ e ∈ tryEmplace k v s, e = (k, v) ∨ e ∈ s := by
  induction s with
  | nil => intro e he; simp [tryEmplace] at he; left; exact he
  | cons hd tl ih =>
      intro e he
      obtain ⟨k2, v2⟩ := hd
      simp only [tryEmplace] at he
      by_cases h1 : k < k2
      · simp [h1] at he
        rcases he with h | h | h
        · left; simp [h]
        · right; simp [h]
        · right; simp [h]
      · by_cases h2 : k = k2
        · simp [h1, h2] at he
          rcases he with h | h
          · right; simp [h]
          · right; simp [h]
        · simp [h1, h2] at he
          rcases he with h | h
          · right; simp [h]
          · rcases ih e h with h3 | h3
            · left; exact h3
            · right; simp [h3]

/-- The inserted key is present after `tryEmplace`. -/
theorem tryEmplace_key_mem (k v : String) (s : Store) :
    k ∈ (tryEmplace k v s).map Prod.fst := by
  induction s with
  | nil => simp [tryEmplace]
  | cons hd tl ih =>
      obtain ⟨k2, v2⟩ := hd
      simp only [tryEmplace]
      by_cases h1 : k < k2
      · simp [h1]
      · by_cases h2 : k = k2
        · simp [h1, h2]
        · simp only [h1, h2, if_false, List.map_cons, List.mem_cons]
          right
          exact ih

/-- Insertion via `tryEmplace` preserves the map ordering invariant. -/
theorem tryEmplace_sorted (k v : String) (s : Store) (hs : StoreSorted s) :
    StoreSorted (tryEmplace k v s) := by
  induction s with
  | nil => simp [tryEmplace, StoreSorted]
  | cons hd tl ih =>
      obtain ⟨k2, v2⟩ := hd
      rw [StoreSorted, List.pairwise_cons] at hs
      obtain ⟨hlt, htl⟩ := hs
      simp only [tryEmplace]
      by_cases h1 : k < k2
      · simp only [h1, if_true]
        rw [StoreSorted, List.pairwise_cons]
        constructor
        · intro b hb
          rcases List.mem_cons.mp hb with h | h
          · subst h; exact h1
          · exact lt_trans h1 (hlt b h)
        · rw [StoreSorted] at *
          exact List.pairwise_cons.mpr ⟨hlt, htl⟩
      · by_cases h2 : k = k2
        · subst h2
          rw [if_neg (lt_irrefl k), if_pos rfl]
          exact List.pairwise_cons.mpr ⟨hlt, htl⟩
        · simp only [h1, h2, if_false]
          rw [StoreSorted, List.pairwise_cons]
          constructor
          · intro b hb
            rcases mem_tryEmplace k v tl b hb with h | h
            · subst h
              rcases lt_trichotomy k k2 with h3 | h3 | h3
              · exact absurd h3 h1
              · exact absurd h3 h2
              · exact h3
            · exact hlt b h
          · exact ih htl

/-- A `tryEmplace` for a key already present in a sorted store is a no-op. -/
theorem tryEmplace_mem_noop (k v w : String) (s : Store)
    (hs : StoreSorted s) (hmem : (k, w) ∈ s) :
    tryEmplace k v s = s := by
  induction s with
  | nil => simp at hmem
  | cons hd tl ih =>
      obtain ⟨k2, v2⟩ := hd
      rw [StoreSorted, List.pairwise_cons] at hs
      obtain ⟨hlt, htl⟩ := hs
      rcases List.mem_cons.mp hmem with h | h
      · have hk : k = k2 := congrArg Prod.fst h
        simp [tryEmplace, hk, lt_irrefl]
      · have hk2 : k2 < k := hlt (k, w) h
        have h1 : ¬ k < k2 := fun hcon => absurd (lt_trans hcon hk2) (lt_irrefl k)
        have h2 : ¬ k = k2 := fun hcon => absurd (hcon ▸ hk2) (lt_irrefl k2)
        simp only [tryEmplace, h1, h2, if_false]
        rw [ih htl h]

/-- C8: for every sorted store and every key already present in it, a second
insert attempt for that key is a no-op — the store keeps the first result and
is unchanged (first write wins, as `std::map::try_emplace` behaves). -/
theorem duplicate_insert_first_write_wins (k v w : String) (s : Store)
    (hs : StoreSorted s) (hmem : (k, w) ∈ s) :
    tryEmplace k v s = s :=
  tryEmplace_mem_noop k v w s hs hmem

/-- Witness for C8: re-inserting key "b" with a fresh checksum leaves the
two-entry store untouched. -/
theorem duplicate_insert_first_write_wins_witness :
    StoreSorted [("a", "11111111"), ("b", "22222222")] ∧
    ("b", "22222222") ∈ [(("a" : String), ("11111111" : String)), ("b", "22222222")] ∧
    tryEmplace "b" "33333333" [("a", "11111111"), ("b", "22222222")] =
      [("a", "11111111"), ("b", "22222222")] := by
  have hs : StoreSorted [("a", "11111111"), ("b", "22222222")] := by
    simp [StoreSorted, String.lt_iff_toList_lt]
    decide
  exact ⟨hs, by decide,
    duplicate_insert_first_write_wins "b" "33333333" "22222222" _ hs (by decide)⟩

/-- C10: with an empty store, `write_sfv` creates no manifest file, performs
no store mutation, and emits no creation message. -/
theorem write_sfv_empty_store_noop (sfvName : String) :
    write_sfv sfvName [] = ⟨[], none, false⟩ :=
  rfl

/-- C4 counterexample: for the directory target `data/mydir` the computed
manifest path is `data/mydir.sfv`, whose parent is `data` — the manifest is a
sibling of the processed directory, not nested at its root. -/
theorem sfv_path_not_nested :
    path_sfv ["data", "mydir"] = ["data", "mydir.sfv"] ∧
    parent_path (path_sfv ["data", "mydir"]) ≠ ["data", "mydir"] := by
  decide

/-- C4 amended: the manifest path appends `.sfv` to the target's last
component and keeps the target's parent directory, so the manifest is a
sibling of the target — for a single file and for a directory alike. -/
theorem sfv_path_sibling (p : FsPath) :
    parent_path (path_sfv p) = parent_path p ∧
    filename (path_sfv p) = filename p ++ ".sfv" := by
  constructor
  · simp [path_sfv, parent_path, List.dropLast_concat]
  · simp [path_sfv, filename, List.getLast?_concat]

/-- C2 counterexample: for an 8192-byte file the allocated buffer holds 8192
bytes, not at most the fixed 4096-byte chunk size — memory is not bounded by
the chunk size. -/
theorem buffer_alloc_not_chunk_bounded :
    ¬ bufferAlloc 8192 ≤ CHUNK_SIZE := by
  decide

/-- Every read size of the loop is positive and at most the chunk size, and
the reads cover the probed file size exactly. -/
theorem chunkSizesGo_spec (chunk : Nat) (hc : 0 < chunk) :
    ∀ fuel remaining, remaining ≤ fuel →
      (chunkSizesGo chunk fuel remaining).sum = remaining ∧
      ∀ c ∈ chunkSizesGo chunk fuel remaining, 0 < c ∧ c ≤ chunk := by
  intro fuel
  induction fuel with
  | zero =>
      intro r hr
      have h0 : r = 0 := Nat.le_zero.mp hr
      subst h0
      simp [chunkSizesGo]
  | succ n ih =>
      intro r hr
      by_cases h0 : r = 0
      · subst h0
        simp [chunkSizesGo]
      · have hminpos : 0 < min chunk r := lt_min hc (Nat.pos_of_ne_zero h0)
        have hminle : min chunk r ≤ r := min_le_right _ _
        have hle : r - min chunk r ≤ n := by omega
        obtain ⟨hsum, hall⟩ := ih (r - min chunk r) hle
        constructor
        · simp only [chunkSizesGo, h0, if_false, List.sum_cons, hsum]
          omega
        · intro c hcmem
          simp only [chunkSizesGo, h0, if_false, List.mem_cons] at hcmem
          rcases hcmem with h | h
          · subst h
            exact ⟨hminpos, min_le_left _ _⟩
          · exact hall c h

/-- C2 amended: `process_file` reads in chunks of at most `CHUNK_SIZE` bytes
that cover the file exactly, but it allocates one buffer of the file's total
size (`new char[file_size]`), so the memory held during the read-and-fold loop
grows with the file and is not bounded by the chunk size. -/
theorem chunked_reads_whole_file_buffer (file_size chunk : Nat) (hc : 0 < chunk) :
    bufferAlloc file_size = file_size ∧
    (chunkSizes chunk file_size).sum = file_size ∧
    ∀ c ∈ chunkSizes chunk file_size, 0 < c ∧ c ≤ chunk :=
  ⟨rfl, (chunkSizesGo_spec chunk hc file_size file_size (Nat.le_refl _)).1,
   (chunkSizesGo_spec chunk hc file_size file_size (Nat.le_refl _)).2⟩

/-- Witness for C2 amended at an 8192-byte file with the source's chunk size. -/
theorem chunked_reads_whole_file_buffer_witness :
    0 < CHUNK_SIZE ∧ bufferAlloc 8192 = 8192 ∧
    (chunkSizes CHUNK_SIZE 8192).sum = 8192 :=
  ⟨by decide, (chunked_reads_whole_file_buffer 8192 CHUNK_SIZE (by decide)).1,
   (chunked_reads_whole_file_buffer 8192 CHUNK_SIZE (by decide)).2.1⟩

/-- A file whose open, size probe, or (in directory mode) relative-path
computation fails leaves the store exactly as it was. -/
theorem processFile_failed (d : Bool) (job : FileJob)
    (h : job.openOk = false ∨ job.sizeOk = false ∨ (d = true ∧ job.relOk = false)) :
    ∀ store, processFile d job store = store := by
  intro store
  rcases h with h | h | ⟨hd, hr⟩
  · simp [processFile, h]
  · cases hopen : job.openOk <;> simp [processFile, hopen, h]
  · cases hopen : job.openOk <;> cases hsize : job.sizeOk <;>
      simp [processFile, hopen, hsize, hd, hr]

/-- C9: in build mode, an open failure, size-probe failure, or relative-path
failure on one file aborts only that file's contribution — the store is
unchanged by it — and the enumeration continues over the remaining files as
if the failed file were absent. -/
theorem failed_file_skipped_run_continues (d : Bool) (job : FileJob)
    (h : job.openOk = false ∨ job.sizeOk = false ∨ (d = true ∧ job.relOk = false))
    (pre suf : List FileJob) (store : Store) :
    processFile d job (runBuild d pre store) = runBuild d pre store ∧
    runBuild d (pre ++ job :: suf) store = runBuild d (pre ++ suf) store := by
  have hskip := processFile_failed d job h
  constructor
  · exact hskip _
  · simp only [runBuild, List.foldl_append, List.foldl_cons]
    rw [hskip]

/-- Witness for C9: a file whose stream fails to open contributes nothing and
the run over it equals the run without it. -/
theorem failed_file_skipped_run_continues_witness :
    (FileJob.mk "f" [65] false true true).openOk = false ∧
    processFile true (FileJob.mk "f" [65] false true true)
      (runBuild true [] []) = runBuild true [] [] ∧
    runBuild true ([] ++ FileJob.mk "f" [65] false true true :: []) [] =
      runBuild true ([] ++ []) [] :=
  ⟨rfl,
   (failed_file_skipped_run_continues true (FileJob.mk "f" [65] false true true)
     (Or.inl rfl) [] [] []).1,
   (failed_file_skipped_run_continues true (FileJob.mk "f" [65] false true true)
     (Or.inl rfl) [] [] []).2⟩

/-- C3 counterexample: for a 2-byte file whose stream delivers only one byte
before end-of-stream, the read loop completes without signalling anything and
a record for the file is inserted into the (initially empty) store. -/
theorem short_read_inserts_record :
    List.length [7] < 2 ∧ process_file_stream 2 [7] [0, 0] "f" [] ≠ [] := by
  decide

/-- C3 amended: `process_file` never inspects the result of `file.read`; a
chunk read delivering fewer bytes than requested is not detected, the CRC is
folded over the buffer contents as they are, and a record for the file's key
is inserted regardless. -/
theorem short_read_undetected_record_inserted (file_size : Nat)
    (avail init : List Nat) (key : String) (store : Store)
    (hshort : avail.length < file_size) :
    key ∈ (process_file_stream file_size avail init key store).map Prod.fst :=
  tryEmplace_key_mem _ _ _

/-- Witness for C3 amended at the short stream of the counterexample. -/
theorem short_read_undetected_record_inserted_witness :
    List.length [7] < 2 ∧
    "f" ∈ (process_file_stream 2 [7] [0, 0] "f" []).map Prod.fst :=
  ⟨by decide, short_read_undetected_record_inserted 2 [7] [0, 0] "f" [] (by decide)⟩

/-- Entries surviving the self-erasure are store entries and never carry the
erased key (a sorted store has no duplicate keys). -/
theorem mem_eraseKey (k : String) (s : Store) (hs : StoreSorted s) :
    ∀ e ∈ eraseKey k s, e ∈ s ∧ e.1 ≠ k := by
  induction s with
  | nil => intro e he; simp [eraseKey] at he
  | cons hd tl ih =>
      obtain ⟨k2, v2⟩ := hd
      rw [StoreSorted, List.pairwise_cons] at hs
      obtain ⟨hlt, htl⟩ := hs
      intro e he
      simp only [eraseKey] at he
      by_cases h2 : k2 = k
      · rw [if_pos h2] at he
        subst h2
        refine ⟨List.mem_cons_of_mem _ he, fun hek => ?_⟩
        exact absurd (hek ▸ hlt e he) (lt_irrefl k2)
      · rw [if_neg h2] at he
        rcases List.mem_cons.mp he with h | h
        · subst h
          exact ⟨List.mem_cons_self _ _, h2⟩
        · obtain ⟨hmem, hne⟩ := ih htl e h
          exact ⟨List.mem_cons_of_mem _ hmem, hne⟩

/-- Erasing a key yields a sublist of the store. -/
theorem eraseKey_sublist (k : String) (s : Store) : (eraseKey k s).Sublist s := by
  induction s with
  | nil => simp [eraseKey]
  | cons hd tl ih =>
      obtain ⟨k2, v2⟩ := hd
      simp only [eraseKey]
      by_cases h : k2 = k
      · rw [if_pos h]
        exact List.sublist_cons_self _ _
      · rw [if_neg h]
        exact ih.cons₂ _

/-- The store built over a file list is sorted by key. -/
theorem buildStore_sorted (files : List (String × List Nat)) :
    StoreSorted (buildStore files) := by
  have h : ∀ s : Store, StoreSorted s →
      StoreSorted (files.foldl (fun st f => tryEmplace f.1 (fileCrcHex f.2) st) s) := by
    induction files with
    | nil => intro s hs; simpa using hs
    | cons f fs ih =>
        intro s hs
        simp only [List.foldl_cons]
        exact ih _ (tryEmplace_sorted _ _ _ hs)
  exact h [] (by simp [StoreSorted])

/-- Every value stored during a build is the rendered chunked CRC of some
content. -/
theorem buildStore_values (files : List (String × List Nat)) :
    ∀ e ∈ buildStore files, ∃ c, e.2 = fileCrcHex c := by
  have h : ∀ s : Store, (∀ e ∈ s, ∃ c, e.2 = fileCrcHex c) →
      ∀ e ∈ files.foldl (fun st f => tryEmplace f.1 (fileCrcHex f.2) st) s,
        ∃ c, e.2 = fileCrcHex c := by
    induction files with
    | nil => intro s hs; simpa using hs
    | cons f fs ih =>
        intro s hs
        simp only [List.foldl_cons]
        refine ih _ ?_
        intro e he
        rcases mem_tryEmplace _ _ _ e he with h1 | h1
        · exact ⟨f.2, by rw [h1]⟩
        · exact hs e h1
  exact h [] (by simp)

theorem fileCrcHex_length (c : List Nat) : (fileCrcHex c).length = 8 :=
  to_hex_length _

theorem fileCrcHex_all_hex (c : List Nat) :
    (fileCrcHex c).data.all isHexUpperChar = true :=
  to_hex_all_hex _

/-- C7: every data line `write_sfv` serializes comes from a store entry whose
key differs from the manifest's own filename — the manifest never lists
itself, even when a file keyed by that very name was processed. -/
theorem manifest_never_lists_itself (sfvName : String) (store : Store)
    (hs : StoreSorted store) (lines : List String)
    (hw : (write_sfv sfvName store).written = some lines) :
    ∀ l ∈ lines, ∃ p v, (p, v) ∈ store ∧ p ≠ sfvName ∧ l = p ++ " " ++ v := by
  unfold write_sfv at hw
  by_cases hemp : store.isEmpty
  · rw [if_pos hemp] at hw
    exact absurd hw (by simp)
  · rw [if_neg hemp] at hw
    have hsome : some (serialize (eraseKey sfvName store)) = some lines := hw
    have hlines : lines = serialize (eraseKey sfvName store) := (Option.some.inj hsome).symm
    intro l hl
    rw [hlines] at hl
    obtain ⟨e, he, rfl⟩ := List.mem_map.mp hl
    obtain ⟨hmem, hne⟩ := mem_eraseKey sfvName store hs e he
    exact ⟨e.1, e.2, hmem, hne, rfl⟩

/-- Witness for C7: a store containing a file named exactly like the output
manifest `t.sfv`; the written lines all come from other keys. -/
theorem manifest_never_lists_itself_witness :
    StoreSorted [("t.sfv", "11111111"), ("z", "22222222")] ∧
    (write_sfv "t.sfv" [("t.sfv", "11111111"), ("z", "22222222")]).written =
      some ["z 22222222"] ∧
    (∃ p v, (p, v) ∈ [(("t.sfv" : String), ("11111111" : String)), ("z", "22222222")] ∧
      p ≠ "t.sfv" ∧ "z 22222222" = p ++ " " ++ v) := by
  have hs : StoreSorted [("t.sfv", "11111111"), ("z", "22222222")] := by
    simp [StoreSorted, String.lt_iff_toList_lt]
    decide
  have hw : (write_sfv "t.sfv" [("t.sfv", "11111111"), ("z", "22222222")]).written =
      some ["z 22222222"] := by decide
  exact ⟨hs, hw,
    manifest_never_lists_itself "t.sfv" _ hs _ hw "z 22222222" (by decide)⟩

/-- C6: the manifest lines written by `write_sfv` over a built store are the
(sorted) store in key order, exactly one line per entry, each line of the form
`<relative-path><space><8-uppercase-hex-checksum>`; serialization is a pure
function of the processed content, so an unchanged directory reproduces the
identical output. -/
theorem sfv_lines_key_order_format (files : List (String × List Nat))
    (sfvName : String) (lines : List String)
    (hw : (write_sfv sfvName (buildStore files)).written = some lines) :
    StoreSorted (eraseKey sfvName (buildStore files)) ∧
    lines.length = (eraseKey sfvName (buildStore files)).length ∧
    ∀ l ∈ lines, ∃ p v, (p, v) ∈ eraseKey sfvName (buildStore files) ∧
      l = p ++ " " ++ v ∧ v.length = 8 ∧ v.data.all isHexUpperChar = true := by
  unfold write_sfv at hw
  by_cases hemp : (buildStore files).isEmpty
  · rw [if_pos hemp] at hw
    exact absurd hw (by simp)
  · rw [if_neg hemp] at hw
    have hsome : some (serialize (eraseKey sfvName (buildStore files))) = some lines := hw
    have hlines : lines = serialize (eraseKey sfvName (buildStore files)) :=
      (Option.some.inj hsome).symm
    have hsorted : StoreSorted (eraseKey sfvName (buildStore files)) :=
      List.Pairwise.sublist (eraseKey_sublist _ _) (buildStore_sorted files)
    refine ⟨hsorted, ?_, ?_⟩
    · rw [hlines]
      simp [serialize]
    · intro l hl
      rw [hlines] at hl
      obtain ⟨e, he, rfl⟩ := List.mem_map.mp hl
      have hmem : e ∈ buildStore files := (eraseKey_sublist _ _).subset he
      obtain ⟨c, hc⟩ := buildStore_values files e hmem
      exact ⟨e.1, e.2, he, rfl, hc ▸ fileCrcHex_length c, hc ▸ fileCrcHex_all_hex c⟩

/-- Witness for C6 at a one-file directory: the single written line is the
key, a space, and the 8-hex checksum `D3D99E8B` of the byte 0x41. -/
theorem sfv_lines_key_order_format_witness :
    (write_sfv "x.sfv" (buildStore [("a", [65])])).written = some ["a D3D99E8B"] ∧
    StoreSorted (eraseKey "x.sfv" (buildStore [("a", [65])])) ∧
    List.length ["a D3D99E8B"] = (eraseKey "x.sfv" (buildStore [("a", [65])])).length := by
  have hw : (write_sfv "x.sfv" (buildStore [("a", [65])])).written =
      some ["a D3D99E8B"] := by decide
  obtain ⟨h1, h2, _⟩ := sfv_lines_key_order_format [("a", [65])] "x.sfv" ["a D3D99E8B"] hw
  exact ⟨hw, h1, h2⟩

end LazyCrc
